import Mathlib

/-!
# Verification of `spring-boot-layertools` (src/src/main.rs, src/src/manifest.rs)

A shallow embedding of the layer-extraction tool.  Paths are modelled the way
Rust's `std::path` treats them on Unix: a path is its list of components, where
`Path::components` drops empty segments and non-leading `.` segments, keeps
`..` as a `ParentDir` component, and marks absolute paths with a leading
`RootDir`.  `PathBuf::join` appends (replacing entirely when the argument is
absolute) and `Path::starts_with` is a component-wise prefix test with no
`..`-resolution — both facts are load-bearing for the traversal claims.

Filesystem effects are modelled as a trace of `create_dir_all` / file-write
actions; the archive is a flat, ordered list of `(name, bytes)` members.
-/

/-- A path component, after Rust's `std::path::Component` (Unix: no prefix
components). -/
inductive Component where
  | rootDir
  | curDir
  | parentDir
  | normal (s : String)
deriving DecidableEq, Repr

/-- Splits a character list at every occurrence of `sep`, keeping empty
groups (the way `str::split` does before any filtering). -/
def splitChars (sep : Char) : List Char → List (List Char)
  | [] => [[]]
  | c :: rest =>
    if c = sep then [] :: splitChars sep rest
    else
      match splitChars sep rest with
      | [] => [[c]]
      | g :: gs => (c :: g) :: gs

/-- The non-empty `/`-separated segments of a path string (`Path::components`
drops empty segments arising from repeated or trailing separators). -/
def splitSegs (cs : List Char) : List (List Char) :=
  (splitChars '/' cs).filter (fun g => g ≠ [])

/-- One segment as a component: `.` is normalised away (handled separately
when leading), `..` is `ParentDir`, anything else is a normal component. -/
def segComp (seg : List Char) : Option Component :=
  if seg = ['.'] then none
  else if seg = ['.', '.'] then some Component.parentDir
  else some (Component.normal (String.mk seg))

/-- `Path::components` of a Unix path, as a list: a leading `/` yields
`RootDir`; a leading `.` segment of a relative path is kept as `CurDir`;
all other `.` segments and all empty segments are dropped; `..` is kept. -/
def parseComponents (cs : List Char) : List Component :=
  if cs.head? = some '/' then Component.rootDir :: (splitSegs cs).filterMap segComp
  else
    match splitSegs cs with
    | seg :: _ =>
      if seg = ['.'] then Component.curDir :: (splitSegs cs).filterMap segComp
      else (splitSegs cs).filterMap segComp
    | [] => (splitSegs cs).filterMap segComp

/-- Components of a path given as a string. -/
def parsePath (s : String) : List Component :=
  parseComponents s.data

/-- `PathBuf::join` at the component level: an absolute argument replaces the
base entirely; otherwise the argument's components are appended (its
non-leading `CurDir`s disappear when re-reading the concatenated string). -/
def joinPath (base other : List Component) : List Component :=
  match other with
  | Component.rootDir :: _ => other
  | _ =>
    if base = [] then other
    else base ++ other.filter (fun c => c ≠ Component.curDir)

/-- `Path::starts_with`: `base` is a component-wise prefix of `p`.  Purely
lexical: `..` components are compared like any other component. -/
def pathStartsWith (p base : List Component) : Bool :=
  decide (base <+: p)

/-- `Path::parent`: drops the last component; `None` for the empty path and
for the bare root. -/
def parentPath : List Component → Option (List Component)
  | [] => none
  | [Component.rootDir] => none
  | ps => some ps.dropLast

/-- `str::starts_with` for string arguments: prefix of the character data. -/
def strStartsWith (s p : String) : Bool :=
  decide (p.data <+: s.data)

/-- `str::ends_with(char)`: the last character equals `c`. -/
def strEndsWith (s : String) (c : Char) : Bool :=
  match s.data.getLast? with
  | some d => d = c
  | none => false

/-- `str::split_once` on character data: splits at the first occurrence. -/
def splitOnceChar (c : Char) : List Char → Option (List Char × List Char)
  | [] => none
  | d :: rest =>
    if d = c then some ([], rest)
    else (splitOnceChar c rest).map (fun p => (d :: p.1, p.2))

/-- `str::split_once(':')` and friends, on strings. -/
def split_once (s : String) (c : Char) : Option (String × String) :=
  (splitOnceChar c s.data).map (fun p => (String.mk p.1, String.mk p.2))

/-- `str::trim_start`: drop leading whitespace (ASCII whitespace; the
manifest values at issue are ASCII). -/
def trimStartStr (s : String) : String :=
  String.mk (s.data.dropWhile Char.isWhitespace)

/-! ## The archive abstraction (a flat, ordered member list) -/

/-- A zip archive: the ordered list of its members, each a name with its byte
content.  `file_names` enumerates names in this order. -/
structure ZipArchive where
  entries : List (String × List Nat)
deriving DecidableEq, Repr

/-- `ZipArchive::file_names`, in archive-listing order. -/
def file_names (zip : ZipArchive) : List String :=
  zip.entries.map Prod.fst

/-- `ZipArchive::by_name`: the content of the first member with this exact
name, if any. -/
def by_name (zip : ZipArchive) (name : String) : Option (List Nat) :=
  (zip.entries.find? (fun e => e.1 == name)).map Prod.snd

/-- Modelled from the spec: the archive abstraction's enclosed-name contract
(`zip::read::ZipFile::enclosed_name`, a dependency not part of this
repository): the member's relative path, rejecting any name with
parent-directory or absolute-root components. -/
def enclosedName (name : String) : Option (List Component) :=
  let comps := parsePath name
  if comps.any (fun c => decide (c = Component.rootDir) || decide (c = Component.parentDir)) then
    none
  else some comps

/-! ## The generic structured-text (YAML) tree -/

/-- The generic parsed tree (`yaml_rust::Yaml`): scalars, sequences and
insertion-ordered mappings; `badValue` stands for the parser's error node. -/
inductive Yaml where
  | real (s : String)
  | int (n : Int)
  | str (s : String)
  | bool (b : Bool)
  | seq (xs : List Yaml)
  | hash (kvs : List (Yaml × Yaml))
  | null
  | badValue

/-- `Yaml::as_str`: only string scalars. -/
def asStr : Yaml → Option String
  | Yaml.str s => some s
  | _ => none

/-- `Yaml::as_vec`: only sequences. -/
def asVec : Yaml → Option (List Yaml)
  | Yaml.seq xs => some xs
  | _ => none

/-- `Yaml::as_hash`: only mappings. -/
def asHash : Yaml → Option (List (Yaml × Yaml))
  | Yaml.hash kvs => some kvs
  | _ => none

/-! ## Manifest reader (src/src/manifest.rs) -/

def PROP_LAYERS_INDEX : String := "Spring-Boot-Layers-Index"

def PROP_CLASSPATH_INDEX : String := "Spring-Boot-Classpath-Index"

/-- The two required manifest properties (`JarManifest`). -/
structure JarManifest where
  layers_index : String
  classpath_index : String
deriving DecidableEq, Repr

/-- Whether a manifest line is scanned for the layers index. -/
def matchesLayers (line : String) : Bool :=
  strStartsWith line PROP_LAYERS_INDEX

/-- Whether a manifest line is scanned for the classpath index. -/
def matchesClasspath (line : String) : Bool :=
  strStartsWith line PROP_CLASSPATH_INDEX

/-- One step of `JarManifest::from_lines`'s fold: a matching line replaces
the corresponding slot with the text after the first colon, start-trimmed
(`None` when the line has no colon); other lines leave the state alone. -/
def stepLine (st : Option String × Option String) (line : String) :
    Option String × Option String :=
  if matchesLayers line then
    ((split_once line ':').map (fun x => trimStartStr x.2), st.2)
  else if matchesClasspath line then
    (st.1, (split_once line ':').map (fun x => trimStartStr x.2))
  else st

/-- The `fold_while` of `JarManifest::from_lines`: scan stops (`Done`) as
soon as both properties are set, otherwise continues to the end. -/
def foldLines : List String → Option String × Option String →
    Option String × Option String
  | [], st => st
  | line :: rest, st =>
    let st2 := stepLine st line
    if st2.1.isNone || st2.2.isNone then foldLines rest st2 else st2

/-- The error produced when the layers index is never set. -/
def msgMissingLayers : String :=
  "MANIFEST.MF missing '" ++ PROP_LAYERS_INDEX ++ "'; layered Jar?"

/-- The error produced when the classpath index is never set. -/
def msgMissingClasspath : String :=
  "MANIFEST.MF missing '" ++ PROP_CLASSPATH_INDEX ++ "'; layered Jar?"

/-- `JarManifest::from_lines`: scan the lines, then fail on whichever slot is
still unset (layers first). -/
def from_lines (lines : List String) : Except String JarManifest :=
  match foldLines lines (none, none) with
  | (some li, some ci) => Except.ok ⟨li, ci⟩
  | (none, _) => Except.error msgMissingLayers
  | (some _, none) => Except.error msgMissingClasspath

/-- `BufRead::lines` outcomes feeding `from_reader`: each line read either
succeeds or fails (I/O or decoding). -/
def lineOk : Except String String → Bool
  | Except.ok _ => true
  | Except.error _ => false

/-- The value of a successful line read (only reached after `take_while`
keeps successes, where `unwrap` cannot panic). -/
def lineValue : Except String String → String
  | Except.ok s => s
  | Except.error _ => ""

/-- The successfully-read prefix of the line stream
(`read.lines().take_while(|r| r.is_ok()).map(Result::unwrap)`). -/
def okLines (results : List (Except String String)) : List String :=
  (results.takeWhile lineOk).map lineValue

/-- `JarManifest::from_reader`: parse the successfully-read prefix of the
lines; a failed read silently ends the iteration. -/
def from_reader (results : List (Except String String)) :
    Except String JarManifest :=
  from_lines (okLines results)

/-! ## Index loader (src/src/main.rs, `layers_yaml` / `classpath_yaml`)

Both functions open the named member, read it as text and hand it to
`YamlLoader::load_from_str`, which yields a list of top-level documents;
the loader is modelled from that list onward (the text parser is an
out-of-scope collaborator).  Both then take `.into_iter().next()`. -/

/-- `layers_yaml`, from the parser's document list onward: error only when
there is no document at all; otherwise the first document. -/
def layers_yaml (docs : List Yaml) : Except String Yaml :=
  match docs with
  | [] => Except.error "Invalid layer index yaml: expected 1 root"
  | d :: _ => Except.ok d

/-- `classpath_yaml`, from the parser's document list onward (the source
reuses the layer-index error strings verbatim). -/
def classpath_yaml (docs : List Yaml) : Except String Yaml :=
  match docs with
  | [] => Except.error "Invalid layer index yaml: expected 1 root"
  | d :: _ => Except.ok d

/-! ## List / classpath operations and the layer planner -/

/-- The `list` subcommand: `as_vec` (error if not an array), then for each
element `as_hash`'s keys (non-mappings silently skipped), then `as_str`
(non-string keys silently skipped). -/
def list (docs : List Yaml) : Except String (List String) :=
  match layers_yaml docs with
  | Except.error e => Except.error e
  | Except.ok y =>
    match asVec y with
    | none => Except.error "Invalid layer index yaml: expected array"
    | some elems =>
      Except.ok ((elems.flatMap (fun e => ((asHash e).getD []).map Prod.fst)).filterMap asStr)

/-- The `classpath` subcommand: `as_vec` (error if not an array), then each
element through `as_str`, silently skipping non-strings. -/
def classpath (docs : List Yaml) : Except String (List String) :=
  match classpath_yaml docs with
  | Except.error e => Except.error e
  | Except.ok y =>
    match asVec y with
    | none => Except.error "Invalid classpath index yaml: expected array"
    | some xs => Except.ok (xs.filterMap asStr)

/-- The planning chain inside `extract`: `as_vec` (error if not an array);
each element through `as_hash` (non-mappings skipped); every `(name, files)`
pair of each mapping; non-string names skipped; names filtered by the
requested set (empty set = all); `files` through `as_vec` keeping only the
string elements, with a non-array value treated as the empty list. -/
def planLayers (y : Yaml) (layers : List String) :
    Except String (List (String × List String)) :=
  match asVec y with
  | none => Except.error "Invalid layer index yaml: expected array"
  | some elems =>
    Except.ok (elems.flatMap (fun elem =>
      match asHash elem with
      | none => []
      | some kvs =>
        kvs.flatMap (fun kv =>
          match asStr kv.1 with
          | none => []
          | some name =>
            if layers.isEmpty || layers.contains name then
              match asVec kv.2 with
              | some fs => [(name, fs.filterMap asStr)]
              | none => [(name, [])]
            else [])))

/-! ## Extraction engine (src/src/main.rs, `extract_layer` / `extract`) -/

/-- A filesystem effect: `std::fs::create_dir_all` on a path, or the
creation of a file at a path (`File::create` + `io::copy`, which truncates
and overwrites any existing file) with the given bytes. -/
inductive FsAction where
  | mkdir (p : List Component)
  | write (p : List Component) (content : List Nat)
deriving DecidableEq, Repr

/-- The path an action touches. -/
def actionPath : FsAction → List Component
  | FsAction.mkdir p => p
  | FsAction.write p _ => p

/-- The outcome of (part of) an extraction: the actions performed, in
order, and the error that aborted it, if any. -/
structure ExtractResult where
  actions : List FsAction
  error : Option String
deriving DecidableEq, Repr

/-- The `create_dir_all(parent)` preceding each file write.  The source
guards it with `parent_path.exists()`; since `create_dir_all` is idempotent
the guard only suppresses a no-op, and the model records the call
unconditionally. -/
def parentMkdir (p : List Component) : List FsAction :=
  match parentPath p with
  | some q => [FsAction.mkdir q]
  | none => []

/-- Whether a directory entry selects an archive member: the member is not
itself a directory marker and the entry is a component-wise prefix of it
(`!zip_entry.ends_with('/') && child_path.starts_with(entry)`). -/
def dirSelects (entry zname : String) : Bool :=
  !(strEndsWith zname '/') && pathStartsWith (parsePath zname) (parsePath entry)

/-- The inner loop of the directory case of `extract_layer`: walk the full
member-name list; every selected member is written at
`layer_destination.join(child_path)` after ensuring its parent directory,
in archive-listing order.  (`by_name` on a name drawn from the archive's
own listing cannot fail; the error branch mirrors the source's context.) -/
def childActions (zip : ZipArchive) (layerDest : List Component)
    (layer entry : String) : List String → ExtractResult
  | [] => ⟨[], none⟩
  | zname :: rest =>
    if dirSelects entry zname then
      match by_name zip zname with
      | none => ⟨[], some ("unknown (child) file " ++ zname ++ " in layer " ++ layer)⟩
      | some content =>
        let outputPath := joinPath layerDest (parsePath zname)
        let r := childActions zip layerDest layer entry rest
        ⟨parentMkdir outputPath ++ FsAction.write outputPath content :: r.actions, r.error⟩
    else childActions zip layerDest layer entry rest

/-- One declared entry of a layer, as processed by `extract_layer`'s loop:
a trailing `/` means the directory case (lexical safety check on
`layer_destination.join(entry)`, `create_dir_all`, then the child scan);
otherwise the file case (`by_name` the exact entry, resolve the enclosed
name, write at `layer_destination.join(enclosed)`). -/
def entryResult (zip : ZipArchive) (layerDest : List Component)
    (layer entry : String) (names : List String) : ExtractResult :=
  if strEndsWith entry '/' then
    let outputPath := joinPath layerDest (parsePath entry)
    if pathStartsWith outputPath layerDest then
      let r := childActions zip layerDest layer entry names
      ⟨FsAction.mkdir outputPath :: r.actions, r.error⟩
    else ⟨[], some "invalid directory name: potential malicious use of relative path"⟩
  else
    match by_name zip entry with
    | none => ⟨[], some ("unknown file " ++ entry ++ " in layer " ++ layer)⟩
    | some content =>
      match enclosedName entry with
      | none => ⟨[], some ("failed to determine enclosed name of file: " ++ entry)⟩
      | some enc =>
        let outputPath := joinPath layerDest enc
        ⟨parentMkdir outputPath ++ [FsAction.write outputPath content], none⟩

/-- The entry loop of `extract_layer`: entries in declared order, stopping
at the first error (actions of earlier entries are kept). -/
def entriesResult (zip : ZipArchive) (layerDest : List Component)
    (layer : String) : List String → ExtractResult
  | [] => ⟨[], none⟩
  | entry :: rest =>
    let r := entryResult zip layerDest layer entry (file_names zip)
    match r.error with
    | some e => ⟨r.actions, some e⟩
    | none =>
      let rr := entriesResult zip layerDest layer rest
      ⟨r.actions ++ rr.actions, rr.error⟩

/-- `extract_layer`: compute `layer_destination = destination.join(layer)`,
reject it unless it (lexically) starts with the destination, create it, and
process the declared entries. -/
def extract_layer (zip : ZipArchive) (destination : List Component)
    (layer : String) (files : List String) : ExtractResult :=
  let layerDest := joinPath destination (parsePath layer)
  if pathStartsWith layerDest destination then
    let r := entriesResult zip layerDest layer files
    ⟨FsAction.mkdir layerDest :: r.actions, r.error⟩
  else ⟨[], some "invalid layer name: potential malicious use of relative path"⟩

/-- `try_for_each(extract_layer)`: layers in plan order, fail-fast; the
actions of layers processed before a failure are kept. -/
def run_extract (zip : ZipArchive) (destination : List Component) :
    List (String × List String) → ExtractResult
  | [] => ⟨[], none⟩
  | (name, fs) :: rest =>
    let r := extract_layer zip destination name fs
    match r.error with
    | some e => ⟨r.actions, some e⟩
    | none =>
      let rr := run_extract zip destination rest
      ⟨r.actions ++ rr.actions, rr.error⟩

/-- The `extract` subcommand: create the destination, load and plan the
layer index, then run the layers. -/
def extract (zip : ZipArchive) (docs : List Yaml) (destination : List Component)
    (layers : List String) : ExtractResult :=
  match layers_yaml docs with
  | Except.error e => ⟨[FsAction.mkdir destination], some e⟩
  | Except.ok y =>
    match planLayers y layers with
    | Except.error e => ⟨[FsAction.mkdir destination], some e⟩
    | Except.ok plan =>
      ⟨FsAction.mkdir destination :: (run_extract zip destination plan).actions,
        (run_extract zip destination plan).error⟩

/-! ## Spec-side notions used to state the claims -/

/-- The file writes in a trace, in order. -/
def writesOf : List FsAction → List (List Component × List Nat)
  | [] => []
  | FsAction.write p c :: rest => (p, c) :: writesOf rest
  | FsAction.mkdir _ :: rest => writesOf rest

/-- One step of `..`/`.` resolution, as a filesystem would perform it. -/
def normStep (acc : List Component) : Component → List Component
  | Component.curDir => acc
  | Component.parentDir =>
    match acc.getLast? with
    | some (Component.normal _) => acc.dropLast
    | _ => acc ++ [Component.parentDir]
  | c => acc ++ [c]

/-- Resolve `..` and `.` components against preceding normal components;
used to state physical (post-resolution) containment. -/
def normalizePath (p : List Component) : List Component :=
  p.foldl normStep []

/-- Physical containment: after resolving `..`, `p` still lies under
`dest`. -/
def insideDest (dest p : List Component) : Prop :=
  normalizePath dest <+: normalizePath p

instance (dest p : List Component) : Decidable (insideDest dest p) :=
  inferInstanceAs (Decidable (normalizePath dest <+: normalizePath p))

/-- The string scalars of a sequence, in order (the spec's description of
the classpath listing). -/
def stringScalars : List Yaml → List String
  | [] => []
  | Yaml.str s :: rest => s :: stringScalars rest
  | _ :: rest => stringScalars rest

/-! ## Concrete archives used in the witnesses and counterexamples -/

/-- A one-member archive: `f.txt` with bytes `[102, 1]`. -/
def zipDemo : ZipArchive := ⟨[("f.txt", [102, 1])]⟩

/-- The spec's directory-expansion example archive, plus `ab/z.txt` to
exercise the segment-wise (not string) prefix comparison. -/
def zipDirDemo : ZipArchive :=
  ⟨[("a/", []), ("a/x.txt", [1]), ("a/b/y.txt", [2]), ("ab/z.txt", [3]), ("c.txt", [4])]⟩

/-! ## Path lemmas -/

theorem pathStartsWith_iff (p base : List Component) :
    pathStartsWith p base = true ↔ base <+: p := by
  simp [pathStartsWith]

theorem strStartsWith_iff (s p : String) :
    strStartsWith s p = true ↔ p.data <+: s.data := by
  simp [strStartsWith]

theorem joinPath_root_eq (base t : List Component) :
    joinPath base (Component.rootDir :: t) = Component.rootDir :: t := rfl

theorem prefix_joinPath (base other : List Component)
    (h : other.head? ≠ some Component.rootDir) : base <+: joinPath base other := by
  have hshape : joinPath base other =
      if base = [] then other
      else base ++ other.filter (fun c => c ≠ Component.curDir) := by
    rcases other with _ | ⟨c, t⟩
    · rfl
    · cases c with
      | rootDir => simp at h
      | curDir => rfl
      | parentDir => rfl
      | normal s => rfl
  rw [hshape]
  by_cases hb : base = []
  · rw [if_pos hb, hb]; exact List.nil_prefix
  · rw [if_neg hb]; exact List.prefix_append _ _

theorem prefix_dropLast_cases (dest p : List Component) (h : dest <+: p) :
    dest <+: p.dropLast ∨ p.dropLast <+: dest := by
  obtain ⟨t, rfl⟩ := h
  cases t with
  | nil =>
    right
    rw [List.append_nil, List.dropLast_eq_take]
    exact List.take_prefix _ _
  | cons b t2 =>
    left
    rw [List.dropLast_append_cons]
    exact List.prefix_append _ _

theorem parentPath_boundary (dest p q : List Component) (hp : dest <+: p)
    (hq : parentPath p = some q) : dest <+: q ∨ q <+: dest := by
  unfold parentPath at hq
  split at hq
  · cases hq
  · cases hq
  · cases hq
    exact prefix_dropLast_cases dest p hp

theorem splitChars_cons_ne (sep c : Char) (rest : List Char) (h : ¬ c = sep) :
    ∃ g gs, splitChars sep (c :: rest) = (c :: g) :: gs := by
  rw [splitChars, if_neg h]
  cases hs : splitChars sep rest with
  | nil => exact ⟨[], [], rfl⟩
  | cons g gs => exact ⟨g, gs, rfl⟩

theorem segComp_isSome (seg : List Char) (h : ¬ seg = ['.']) :
    ∃ x, segComp seg = some x := by
  rw [segComp, if_neg h]
  by_cases h2 : seg = ['.', '.']
  · rw [if_pos h2]; exact ⟨_, rfl⟩
  · rw [if_neg h2]; exact ⟨_, rfl⟩

theorem parseComponents_ne_nil (cs : List Char) (h : cs ≠ []) :
    parseComponents cs ≠ [] := by
  rcases cs with _ | ⟨c, rest⟩
  · exact absurd rfl h
  · by_cases hc : c = '/'
    · rw [parseComponents, if_pos (by simp [hc])]
      exact List.cons_ne_nil _ _
    · rw [parseComponents, if_neg (by simp [hc])]
      obtain ⟨g, gs, hg⟩ := splitChars_cons_ne '/' c rest hc
      have hsegs : splitSegs (c :: rest) = (c :: g) :: gs.filter (fun x => x ≠ []) := by
        rw [splitSegs, hg, List.filter_cons]
        simp
      simp only [hsegs]
      by_cases hdot : (c :: g) = ['.']
      · rw [if_pos hdot]
        exact List.cons_ne_nil _ _
      · rw [if_neg hdot]
        obtain ⟨x, hx⟩ := segComp_isSome _ hdot
        simp [List.filterMap_cons, hx]

theorem parsePath_ne_nil (s : String) (h : s.data ≠ []) : parsePath s ≠ [] :=
  parseComponents_ne_nil s.data h

theorem strEndsWith_data_ne_nil (s : String) (c : Char)
    (h : strEndsWith s c = true) : s.data ≠ [] := by
  intro hd
  rw [strEndsWith, hd] at h
  simp [List.getLast?] at h

/-! ## Manifest scan lemmas -/

theorem matchesLayers_not_matchesClasspath (l : String)
    (h : matchesLayers l = true) : matchesClasspath l = false := by
  by_contra hb
  have hc : matchesClasspath l = true := by
    revert hb; cases matchesClasspath l <;> simp
  have hL : PROP_LAYERS_INDEX.data <+: l.data := (strStartsWith_iff _ _).1 h
  have hC : PROP_CLASSPATH_INDEX.data <+: l.data := (strStartsWith_iff _ _).1 hc
  rcases List.prefix_or_prefix_of_prefix hL hC with hh | hh
  · exact (by decide : ¬ PROP_LAYERS_INDEX.data <+: PROP_CLASSPATH_INDEX.data) hh
  · exact (by decide : ¬ PROP_CLASSPATH_INDEX.data <+: PROP_LAYERS_INDEX.data) hh

theorem foldLines_cons (line : String) (rest : List String)
    (st : Option String × Option String) :
    foldLines (line :: rest) st =
      if (stepLine st line).1.isNone || (stepLine st line).2.isNone
      then foldLines rest (stepLine st line) else stepLine st line := rfl

theorem stepLine_layers (st : Option String × Option String) (line : String)
    (h : matchesLayers line = true) :
    stepLine st line = ((split_once line ':').map (fun x => trimStartStr x.2), st.2) := by
  simp [stepLine, h]

theorem stepLine_classpath (st : Option String × Option String) (line : String)
    (h1 : matchesLayers line = false) (h2 : matchesClasspath line = true) :
    stepLine st line = (st.1, (split_once line ':').map (fun x => trimStartStr x.2)) := by
  simp [stepLine, h1, h2]

theorem stepLine_other (st : Option String × Option String) (line : String)
    (h1 : matchesLayers line = false) (h2 : matchesClasspath line = false) :
    stepLine st line = st := by
  simp [stepLine, h1, h2]

theorem foldLines_found (lines : List String) :
    ∀ (sl sc tl tc : Option String),
    (sl = tl ∧ lines.filter matchesLayers = [] ∨
      sl = none ∧ ∃ ll pl, lines.filter matchesLayers = [ll] ∧
        split_once ll ':' = some pl ∧ tl = some (trimStartStr pl.2)) →
    (sc = tc ∧ lines.filter matchesClasspath = [] ∨
      sc = none ∧ ∃ cl pc, lines.filter matchesClasspath = [cl] ∧
        split_once cl ':' = some pc ∧ tc = some (trimStartStr pc.2)) →
    foldLines lines (sl, sc) = (tl, tc) := by
  induction lines with
  | nil =>
    intro sl sc tl tc hL hC
    rcases hL with ⟨rfl, _⟩ | ⟨_, _, _, hfil, _⟩
    · rcases hC with ⟨rfl, _⟩ | ⟨_, _, _, hfil, _⟩
      · rfl
      · simp at hfil
    · simp at hfil
  | cons head rest ih =>
    intro sl sc tl tc hL hC
    by_cases hm : matchesLayers head = true
    · have hnc : matchesClasspath head = false := matchesLayers_not_matchesClasspath head hm
      rcases hL with ⟨_, hfil⟩ | ⟨hslnone, ll, pl, hfil, hsplit, htl⟩
      · rw [List.filter_cons, if_pos hm] at hfil
        cases hfil
      · rw [List.filter_cons, if_pos hm] at hfil
        obtain ⟨rfl, hrest⟩ : head = ll ∧ rest.filter matchesLayers = [] := by
          exact ⟨(List.cons.injEq _ _ _ _ ▸ hfil).1, (List.cons.injEq _ _ _ _ ▸ hfil).2⟩
        rw [foldLines_cons, stepLine_layers (sl, sc) head hm]
        simp only [hsplit, Option.map_some']
        rcases hC with ⟨hsceq, hCfil⟩ | ⟨hscnone, cl, pc, hCfil, hCsplit, htc⟩
        · rw [List.filter_cons, if_neg (by simp [hnc])] at hCfil
          cases tc with
          | some w =>
            rw [htl, ← hsceq]
            have hsc : sc = some w := hsceq
            rw [hsc]
            rfl
          | none =>
            have hsc : sc = none := hsceq
            rw [hsc]
            simp only [Option.isNone_some, Option.isNone_none, Bool.false_or, Bool.or_true,
              if_true]
            exact ih (some (trimStartStr pl.2)) none tl none
              (Or.inl ⟨htl.symm, hrest⟩) (Or.inl ⟨rfl, hCfil⟩)
        · rw [List.filter_cons, if_neg (by simp [hnc])] at hCfil
          rw [hscnone]
          simp only [Option.isNone_some, Option.isNone_none, Bool.or_true, if_true]
          exact ih (some (trimStartStr pl.2)) none tl tc
            (Or.inl ⟨htl.symm, hrest⟩) (Or.inr ⟨rfl, cl, pc, hCfil, hCsplit, htc⟩)
    · have hm' : matchesLayers head = false := by
        revert hm; cases matchesLayers head <;> simp
      by_cases hmc : matchesClasspath head = true
      · have hLfil : (head :: rest).filter matchesLayers = rest.filter matchesLayers := by
          rw [List.filter_cons, if_neg (by simp [hm'])]
        rcases hC with ⟨_, hCfil⟩ | ⟨hscnone, cl, pc, hCfil, hCsplit, htc⟩
        · rw [List.filter_cons, if_pos hmc] at hCfil
          cases hCfil
        · rw [List.filter_cons, if_pos hmc] at hCfil
          obtain ⟨rfl, hCrest⟩ : head = cl ∧ rest.filter matchesClasspath = [] := by
            exact ⟨(List.cons.injEq _ _ _ _ ▸ hCfil).1, (List.cons.injEq _ _ _ _ ▸ hCfil).2⟩
          rw [foldLines_cons, stepLine_classpath (sl, sc) head hm' hmc]
          simp only [hCsplit, Option.map_some']
          rcases hL with ⟨hsleq, hLf⟩ | ⟨hslnone, ll, pl, hLf, hLsplit, htl⟩
          · rw [hLfil] at hLf
            cases tl with
            | some u =>
              rw [htc, ← hsleq]
              have hsl : sl = some u := hsleq
              rw [hsl]
              rfl
            | none =>
              have hsl : sl = none := hsleq
              rw [hsl]
              simp only [Option.isNone_none, Bool.true_or, if_true]
              exact ih none (some (trimStartStr pc.2)) none tc
                (Or.inl ⟨rfl, hLf⟩) (Or.inl ⟨htc.symm, hCrest⟩)
          · rw [hLfil] at hLf
            rw [hslnone]
            simp only [Option.isNone_none, Bool.true_or, if_true]
            exact ih none (some (trimStartStr pc.2)) tl tc
              (Or.inr ⟨rfl, ll, pl, hLf, hLsplit, htl⟩) (Or.inl ⟨htc.symm, hCrest⟩)
      · have hmc' : matchesClasspath head = false := by
          revert hmc; cases matchesClasspath head <;> simp
        have hLfil : (head :: rest).filter matchesLayers = rest.filter matchesLayers := by
          rw [List.filter_cons, if_neg (by simp [hm'])]
        have hCfil : (head :: rest).filter matchesClasspath = rest.filter matchesClasspath := by
          rw [List.filter_cons, if_neg (by simp [hmc'])]
        rw [foldLines_cons, stepLine_other (sl, sc) head hm' hmc']
        rw [hLfil] at hL
        rw [hCfil] at hC
        rcases hsl : sl with _ | u
        · simp only [Option.isNone_none, Bool.true_or, if_true]
          rw [hsl] at hL
          exact ih none sc tl tc hL hC
        · rcases hsc : sc with _ | w
          · simp only [Option.isNone_some, Option.isNone_none, Bool.or_true, if_true]
            rw [hsl] at hL; rw [hsc] at hC
            exact ih (some u) none tl tc hL hC
          · rw [hsl] at hL; rw [hsc] at hC
            rcases hL with ⟨heq, _⟩ | ⟨hnone, _⟩
            · rcases hC with ⟨heq2, _⟩ | ⟨hnone2, _⟩
              · subst heq; subst heq2; simp
              · cases hnone2
            · cases hnone

theorem filter_eq_nil_head (p : String → Bool) (head : String) (rest : List String)
    (h : (head :: rest).filter p = []) : p head = false ∧ rest.filter p = [] := by
  rw [List.filter_cons] at h
  by_cases hp : p head = true
  · rw [if_pos hp] at h; cases h
  · refine ⟨?_, ?_⟩
    · revert hp; cases p head <;> simp
    · rwa [if_neg (by simp [hp])] at h

theorem foldLines_layers_none (lines : List String) :
    ∀ sc, lines.filter matchesLayers = [] → (foldLines lines (none, sc)).1 = none := by
  induction lines with
  | nil => intro sc _; rfl
  | cons head rest ih =>
    intro sc hfil
    obtain ⟨hm, hrest⟩ := filter_eq_nil_head matchesLayers head rest hfil
    rw [foldLines_cons]
    by_cases hmc : matchesClasspath head = true
    · rw [stepLine_classpath (none, sc) head hm hmc]
      simp only [Option.isNone_none, Bool.true_or, if_true]
      exact ih _ hrest
    · have hmc' : matchesClasspath head = false := by
        revert hmc; cases matchesClasspath head <;> simp
      rw [stepLine_other (none, sc) head hm hmc']
      simp only [Option.isNone_none, Bool.true_or, if_true]
      exact ih _ hrest

theorem from_lines_success (lines : List String) (ll cl : String)
    (pl pc : String × String)
    (hL : lines.filter matchesLayers = [ll])
    (hC : lines.filter matchesClasspath = [cl])
    (hsl : split_once ll ':' = some pl)
    (hsc : split_once cl ':' = some pc) :
    from_lines lines = Except.ok ⟨trimStartStr pl.2, trimStartStr pc.2⟩ := by
  rw [from_lines,
    foldLines_found lines none none (some (trimStartStr pl.2)) (some (trimStartStr pc.2))
      (Or.inr ⟨rfl, ll, pl, hL, hsl, rfl⟩) (Or.inr ⟨rfl, cl, pc, hC, hsc, rfl⟩)]

theorem from_lines_missing_layers (lines : List String)
    (h : lines.filter matchesLayers = []) :
    from_lines lines = Except.error msgMissingLayers := by
  rw [from_lines]
  have h1 := foldLines_layers_none lines none h
  rcases hfl : foldLines lines (none, none) with ⟨a, b⟩
  rw [hfl] at h1
  simp only at h1
  subst h1
  cases b <;> rfl

theorem from_lines_missing_classpath (lines : List String) (ll : String)
    (pl : String × String)
    (hL : lines.filter matchesLayers = [ll])
    (hsl : split_once ll ':' = some pl)
    (hC : lines.filter matchesClasspath = []) :
    from_lines lines = Except.error msgMissingClasspath := by
  rw [from_lines,
    foldLines_found lines none none (some (trimStartStr pl.2)) none
      (Or.inr ⟨rfl, ll, pl, hL, hsl, rfl⟩) (Or.inl ⟨rfl, hC⟩)]

theorem from_lines_shape (lines : List String) :
    (∃ m, from_lines lines = Except.ok m) ∨
    from_lines lines = Except.error msgMissingLayers ∨
    from_lines lines = Except.error msgMissingClasspath := by
  rw [from_lines]
  rcases foldLines lines (none, none) with ⟨_ | li, _ | ci⟩
  · right; left; rfl
  · right; left; rfl
  · right; right; rfl
  · left; exact ⟨_, rfl⟩

theorem takeWhile_ok_append (pre : List (Except String String)) (e : String)
    (post : List (Except String String)) (hpre : ∀ r ∈ pre, lineOk r = true) :
    (pre ++ Except.error e :: post).takeWhile lineOk = pre := by
  induction pre with
  | nil => simp [List.takeWhile_cons, lineOk]
  | cons a l ih =>
    have ha : lineOk a = true := hpre a (by simp)
    simp only [List.cons_append, List.takeWhile_cons, ha, if_true]
    rw [ih (fun r hr => hpre r (by simp [hr]))]

/-! ## Extraction lemmas -/

/-- Lexical boundary relative to a root: the touched path either extends the
root or is an ancestor (prefix) of it. -/
def withinDest (dest p : List Component) : Prop :=
  dest <+: p ∨ p <+: dest

theorem withinDest_trans (dest mid p : List Component) (h1 : dest <+: mid)
    (h2 : withinDest mid p) : withinDest dest p := by
  rcases h2 with h | h
  · exact Or.inl (h1.trans h)
  · exact List.prefix_or_prefix_of_prefix h1 h

theorem writesOf_append (l1 l2 : List FsAction) :
    writesOf (l1 ++ l2) = writesOf l1 ++ writesOf l2 := by
  induction l1 with
  | nil => rfl
  | cons a rest ih => cases a <;> simp [writesOf, ih]

theorem writesOf_parentMkdir_cons (p q : List Component) (c : List Nat)
    (l : List FsAction) :
    writesOf (parentMkdir p ++ FsAction.write q c :: l) = (q, c) :: writesOf l := by
  rw [parentMkdir]
  cases parentPath p <;> simp [writesOf]

theorem parentMkdir_actions (p : List Component) (a : FsAction)
    (ha : a ∈ parentMkdir p) : ∃ q, a = FsAction.mkdir q ∧ parentPath p = some q := by
  rw [parentMkdir] at ha
  cases hq : parentPath p <;> rw [hq] at ha
  · cases ha
  · rw [List.mem_singleton] at ha
    exact ⟨_, ha, rfl⟩

theorem by_name_isSome_of_mem (zip : ZipArchive) (z : String)
    (h : z ∈ file_names zip) : (by_name zip z).isSome := by
  rw [file_names] at h
  obtain ⟨e, he, rfl⟩ := List.mem_map.1 h
  rw [by_name]
  have hfind : (zip.entries.find? (fun x => x.1 == e.1)).isSome := by
    rw [List.find?_isSome]
    exact ⟨e, he, by simp⟩
  simpa using hfind

theorem enclosedName_no_root (name : String) (enc : List Component)
    (h : enclosedName name = some enc) : enc.head? ≠ some Component.rootDir := by
  rw [enclosedName] at h
  split at h
  · cases h
  · rename_i hany
    cases h
    intro hh
    rcases hmem : parsePath name with _ | ⟨c, t⟩
    · rw [hmem] at hh; cases hh
    · rw [hmem] at hh
      simp only [List.head?_cons, Option.some.injEq] at hh
      subst hh
      rw [hmem] at hany
      simp [List.any_cons] at hany

theorem child_output_within (layerDest : List Component) (entry zname : String)
    (hentry : parsePath entry ≠ [])
    (hchk : layerDest <+: joinPath layerDest (parsePath entry))
    (hsel : pathStartsWith (parsePath zname) (parsePath entry) = true) :
    layerDest <+: joinPath layerDest (parsePath zname) := by
  have hpre : parsePath entry <+: parsePath zname := (pathStartsWith_iff _ _).1 hsel
  by_cases hz : (parsePath zname).head? = some Component.rootDir
  · obtain ⟨t, hzz⟩ : ∃ t, parsePath zname = Component.rootDir :: t := by
      rcases hzp : parsePath zname with _ | ⟨c, t⟩
      · rw [hzp] at hz; cases hz
      · rw [hzp] at hz
        simp only [List.head?_cons, Option.some.injEq] at hz
        exact ⟨t, by rw [hz]⟩
    obtain ⟨d, s, hee⟩ : ∃ d s, parsePath entry = d :: s := by
      rcases hep : parsePath entry with _ | ⟨d, s⟩
      · exact absurd hep hentry
      · exact ⟨d, s, rfl⟩
    rw [hzz, hee] at hpre
    obtain ⟨u, hu⟩ := hpre
    rw [List.cons_append] at hu
    injection hu with h1 h2
    subst h1
    rw [hee, joinPath_root_eq] at hchk
    rw [hzz, joinPath_root_eq]
    refine hchk.trans ?_
    exact ⟨u, by rw [List.cons_append, h2]⟩
  · exact prefix_joinPath layerDest (parsePath zname) hz

theorem dirSelects_starts (entry z : String) (h : dirSelects entry z = true) :
    pathStartsWith (parsePath z) (parsePath entry) = true := by
  rw [dirSelects, Bool.and_eq_true] at h
  exact h.2

theorem childActions_boundary (zip : ZipArchive) (layerDest : List Component)
    (layer entry : String)
    (hentry : parsePath entry ≠ [])
    (hchk : layerDest <+: joinPath layerDest (parsePath entry)) :
    ∀ (names : List String) (a : FsAction),
      a ∈ (childActions zip layerDest layer entry names).actions →
      withinDest layerDest (actionPath a) := by
  intro names
  induction names with
  | nil => intro a ha; simp [childActions] at ha
  | cons zname rest ih =>
    intro a ha
    by_cases hsel : dirSelects entry zname = true
    · simp only [childActions, hsel, if_true] at ha
      cases hby : by_name zip zname with
      | none => rw [hby] at ha; simp at ha
      | some content =>
        rw [hby] at ha
        simp only [List.mem_append] at ha
        have hout : layerDest <+: joinPath layerDest (parsePath zname) :=
          child_output_within layerDest entry zname hentry hchk
            (dirSelects_starts entry zname hsel)
        rcases ha with ha | ha
        · obtain ⟨q, rfl, hq⟩ := parentMkdir_actions _ a ha
          exact parentPath_boundary _ _ _ hout hq
        · rcases List.mem_cons.1 ha with rfl | ha
          · exact Or.inl hout
          · exact ih a ha
    · have hsel' : dirSelects entry zname = false := by
        revert hsel; cases dirSelects entry zname <;> simp
      simp only [childActions, hsel', Bool.false_eq_true, if_false] at ha
      exact ih a ha

theorem entryResult_boundary (zip : ZipArchive) (layerDest : List Component)
    (layer entry : String) (names : List String) (a : FsAction)
    (ha : a ∈ (entryResult zip layerDest layer entry names).actions) :
    withinDest layerDest (actionPath a) := by
  by_cases hdir : strEndsWith entry '/' = true
  · have hentry : parsePath entry ≠ [] :=
      parsePath_ne_nil entry (strEndsWith_data_ne_nil entry '/' hdir)
    by_cases hchk : pathStartsWith (joinPath layerDest (parsePath entry)) layerDest = true
    · simp only [entryResult, hdir, if_true, hchk] at ha
      rcases List.mem_cons.1 ha with rfl | ha
      · exact Or.inl ((pathStartsWith_iff _ _).1 hchk)
      · exact childActions_boundary zip layerDest layer entry hentry
          ((pathStartsWith_iff _ _).1 hchk) names a ha
    · have hchk' : pathStartsWith (joinPath layerDest (parsePath entry)) layerDest = false := by
        revert hchk; cases pathStartsWith (joinPath layerDest (parsePath entry)) layerDest <;> simp
      simp only [entryResult, hdir, if_true, hchk', Bool.false_eq_true, if_false] at ha
      cases ha
  · have hdir' : strEndsWith entry '/' = false := by
      revert hdir; cases strEndsWith entry '/' <;> simp
    simp only [entryResult, hdir', Bool.false_eq_true, if_false] at ha
    cases hby : by_name zip entry with
    | none => rw [hby] at ha; cases ha
    | some content =>
      rw [hby] at ha
      cases henc : enclosedName entry with
      | none => rw [henc] at ha; cases ha
      | some enc =>
        rw [henc] at ha
        simp only [List.mem_append] at ha
        have hout : layerDest <+: joinPath layerDest enc :=
          prefix_joinPath layerDest enc (enclosedName_no_root entry enc henc)
        rcases ha with ha | ha
        · obtain ⟨q, rfl, hq⟩ := parentMkdir_actions _ a ha
          exact parentPath_boundary _ _ _ hout hq
        · rcases List.mem_singleton.1 ha with rfl
          exact Or.inl hout

theorem entriesResult_boundary (zip : ZipArchive) (layerDest : List Component)
    (layer : String) :
    ∀ (files : List String) (a : FsAction),
      a ∈ (entriesResult zip layerDest layer files).actions →
      withinDest layerDest (actionPath a) := by
  intro files
  induction files with
  | nil => intro a ha; simp [entriesResult] at ha
  | cons entry rest ih =>
    intro a ha
    simp only [entriesResult] at ha
    cases herr : (entryResult zip layerDest layer entry (file_names zip)).error with
    | some e =>
      rw [herr] at ha
      exact entryResult_boundary zip layerDest layer entry (file_names zip) a ha
    | none =>
      rw [herr] at ha
      simp only [List.mem_append] at ha
      rcases ha with ha | ha
      · exact entryResult_boundary zip layerDest layer entry (file_names zip) a ha
      · exact ih a ha

theorem extract_layer_boundary (zip : ZipArchive) (dest : List Component)
    (layer : String) (files : List String) (a : FsAction)
    (ha : a ∈ (extract_layer zip dest layer files).actions) :
    withinDest dest (actionPath a) := by
  by_cases hchk : pathStartsWith (joinPath dest (parsePath layer)) dest = true
  · simp only [extract_layer, hchk, if_true] at ha
    have hld : dest <+: joinPath dest (parsePath layer) := (pathStartsWith_iff _ _).1 hchk
    rcases List.mem_cons.1 ha with rfl | ha
    · exact Or.inl hld
    · exact withinDest_trans dest (joinPath dest (parsePath layer)) (actionPath a) hld
        (entriesResult_boundary zip (joinPath dest (parsePath layer)) layer files a ha)
  · have hchk' : pathStartsWith (joinPath dest (parsePath layer)) dest = false := by
      revert hchk
      cases pathStartsWith (joinPath dest (parsePath layer)) dest <;> simp
    simp only [extract_layer, hchk', Bool.false_eq_true, if_false] at ha
    cases ha

theorem run_extract_boundary (zip : ZipArchive) (dest : List Component) :
    ∀ (plan : List (String × List String)) (a : FsAction),
      a ∈ (run_extract zip dest plan).actions → withinDest dest (actionPath a) := by
  intro plan
  induction plan with
  | nil => intro a ha; simp [run_extract] at ha
  | cons lf rest ih =>
    intro a ha
    rcases lf with ⟨name, fs⟩
    simp only [run_extract] at ha
    cases herr : (extract_layer zip dest name fs).error with
    | some e =>
      rw [herr] at ha
      exact extract_layer_boundary zip dest name fs a ha
    | none =>
      rw [herr] at ha
      simp only [List.mem_append] at ha
      rcases ha with ha | ha
      · exact extract_layer_boundary zip dest name fs a ha
      · exact ih a ha

theorem childActions_spec (zip : ZipArchive) (layerDest : List Component)
    (layer entry : String) :
    ∀ names : List String, (∀ z ∈ names, (by_name zip z).isSome) →
      (childActions zip layerDest layer entry names).error = none ∧
      writesOf (childActions zip layerDest layer entry names).actions =
        (names.filter (dirSelects entry)).map
          (fun z => (joinPath layerDest (parsePath z), (by_name zip z).getD [])) := by
  intro names
  induction names with
  | nil => intro _; exact ⟨rfl, rfl⟩
  | cons z rest ih =>
    intro hnames
    have hz := hnames z (by simp)
    obtain ⟨c, hc⟩ := Option.isSome_iff_exists.1 hz
    have hrest := ih (fun y hy => hnames y (by simp [hy]))
    by_cases hsel : dirSelects entry z = true
    · constructor
      · simp only [childActions, hsel, if_true, hc]
        exact hrest.1
      · simp only [childActions, hsel, if_true, hc, List.filter_cons, List.map_cons]
        rw [writesOf_parentMkdir_cons, hrest.2]
        simp [hc]
    · have hsel' : dirSelects entry z = false := by
        revert hsel; cases dirSelects entry z <;> simp
      constructor
      · simp only [childActions, hsel', Bool.false_eq_true, if_false]
        exact hrest.1
      · simp only [childActions, hsel', Bool.false_eq_true, if_false, List.filter_cons]
        exact hrest.2

theorem entriesResult_append_ok (zip : ZipArchive) (layerDest : List Component)
    (layer : String) :
    ∀ fs1 fs2 : List String,
      (entriesResult zip layerDest layer fs1).error = none →
      entriesResult zip layerDest layer (fs1 ++ fs2) =
        ⟨(entriesResult zip layerDest layer fs1).actions ++
          (entriesResult zip layerDest layer fs2).actions,
          (entriesResult zip layerDest layer fs2).error⟩ := by
  intro fs1
  induction fs1 with
  | nil => intro fs2 _; simp [entriesResult]
  | cons e rest ih =>
    intro fs2 h
    rw [List.cons_append]
    simp only [entriesResult] at h ⊢
    cases herr : (entryResult zip layerDest layer e (file_names zip)).error with
    | some msg => rw [herr] at h; simp at h
    | none =>
      rw [herr] at h
      have h2 : (entriesResult zip layerDest layer rest).error = none := h
      show (⟨(entryResult zip layerDest layer e (file_names zip)).actions ++
          (entriesResult zip layerDest layer (rest ++ fs2)).actions,
          (entriesResult zip layerDest layer (rest ++ fs2)).error⟩ : ExtractResult) = _
      rw [ih fs2 h2]
      simp [List.append_assoc]

theorem run_extract_append_ok (zip : ZipArchive) (dest : List Component) :
    ∀ pre rest : List (String × List String),
      (run_extract zip dest pre).error = none →
      run_extract zip dest (pre ++ rest) =
        ⟨(run_extract zip dest pre).actions ++ (run_extract zip dest rest).actions,
          (run_extract zip dest rest).error⟩ := by
  intro pre
  induction pre with
  | nil => intro rest _; simp [run_extract]
  | cons lf tail ih =>
    intro rest h
    rcases lf with ⟨name, fs⟩
    rw [List.cons_append]
    simp only [run_extract] at h ⊢
    cases herr : (extract_layer zip dest name fs).error with
    | some msg => rw [herr] at h; simp at h
    | none =>
      rw [herr] at h
      have h2 : (run_extract zip dest tail).error = none := h
      show (⟨(extract_layer zip dest name fs).actions ++
          (run_extract zip dest (tail ++ rest)).actions,
          (run_extract zip dest (tail ++ rest)).error⟩ : ExtractResult) = _
      rw [ih rest h2]
      simp [List.append_assoc]

theorem filterMap_asStr_eq_stringScalars (xs : List Yaml) :
    xs.filterMap asStr = stringScalars xs := by
  induction xs with
  | nil => rfl
  | cons x rest ih => cases x <;> simp [List.filterMap_cons, asStr, stringScalars, ih]

/-! ## Claim theorems -/

/-- Claim C1, evaluated at the failing input: the spec says a layer name
containing a `..` segment is rejected by the lexical starts-with check and
creates nothing, but `destination.join("../evil")` still starts with the
destination because `Path::starts_with` compares components without
resolving `..`; extraction therefore reports no error and creates the layer
directory (and the declared file) under `out/..`, outside the destination. -/
theorem extract_layer_dotdot_not_rejected :
    pathStartsWith (joinPath [Component.normal "out"] (parsePath "../evil"))
      [Component.normal "out"] = true ∧
    (extract_layer zipDemo [Component.normal "out"] "../evil" ["f.txt"]).error = none ∧
    FsAction.mkdir [Component.normal "out", Component.parentDir, Component.normal "evil"] ∈
      (extract_layer zipDemo [Component.normal "out"] "../evil" ["f.txt"]).actions := by
  decide

/-- Claim C2 counterexample: with layer name `../evil` the extract run
reports no error and writes `out/../evil/f.txt`, whose `..`-resolved path
`evil/f.txt` is not under the destination `out`: extraction does
materialize output outside the destination boundary. -/
theorem extract_materializes_outside_destination :
    (run_extract zipDemo [Component.normal "out"] [("../evil", ["f.txt"])]).error = none ∧
    FsAction.write [Component.normal "out", Component.parentDir, Component.normal "evil",
        Component.normal "f.txt"] [102, 1] ∈
      (run_extract zipDemo [Component.normal "out"] [("../evil", ["f.txt"])]).actions ∧
    ¬ insideDest [Component.normal "out"]
      [Component.normal "out", Component.parentDir, Component.normal "evil",
        Component.normal "f.txt"] := by
  decide

/-- Claim C2 (amended): every path at which the extract operation creates a
file or directory either has the destination as a lexical component-wise
prefix, or is itself a component-wise prefix of the destination (an
already-existing ancestor touched only by idempotent directory creation).
`..` components are not resolved by the checks, so this lexical containment
is the only boundary the code enforces; it implies physical containment
only for plans free of `..` components. -/
theorem extract_lexical_boundary (zip : ZipArchive) (docs : List Yaml)
    (destination : List Component) (layers : List String) (a : FsAction)
    (ha : a ∈ (extract zip docs destination layers).actions) :
    destination <+: actionPath a ∨ actionPath a <+: destination := by
  revert ha
  rw [extract]
  cases layers_yaml docs with
  | error e =>
    intro ha
    have h0 : a = FsAction.mkdir destination := List.mem_singleton.1 ha
    subst h0
    exact Or.inl List.prefix_rfl
  | ok y =>
    show a ∈ (match planLayers y layers with
      | Except.error e => (⟨[FsAction.mkdir destination], some e⟩ : ExtractResult)
      | Except.ok plan =>
        ⟨FsAction.mkdir destination :: (run_extract zip destination plan).actions,
          (run_extract zip destination plan).error⟩).actions →
      destination <+: actionPath a ∨ actionPath a <+: destination
    cases planLayers y layers with
    | error e =>
      intro ha
      have h0 : a = FsAction.mkdir destination := List.mem_singleton.1 ha
      subst h0
      exact Or.inl List.prefix_rfl
    | ok plan =>
      intro ha
      rcases List.mem_cons.1 ha with rfl | ha
      · exact Or.inl List.prefix_rfl
      · exact run_extract_boundary zip destination plan a ha

/-- Witness for the amended C2 theorem at a concrete run. -/
theorem extract_lexical_boundary_witness :
    [Component.normal "out"] <+: actionPath (FsAction.mkdir [Component.normal "out"]) ∨
    actionPath (FsAction.mkdir [Component.normal "out"]) <+: [Component.normal "out"] :=
  extract_lexical_boundary zipDemo [Yaml.seq []] [Component.normal "out"] []
    (FsAction.mkdir [Component.normal "out"]) (by decide)

/-- Claim C3: for a declared directory entry (trailing separator) passing
the lexical check, the engine writes exactly the archive members that are
not directory markers and have the entry as a component-wise (path-segment)
prefix, each at `layer_root.join(member_name)`, in archive-listing order;
on the example archive `{"a/","a/x.txt","a/b/y.txt","ab/z.txt","c.txt"}`
with layer `["a/"]` exactly `a/x.txt` and `a/b/y.txt` are produced — `a/`
does not match `ab/z.txt`, and nothing is produced for `c.txt`. -/
theorem dir_entry_expansion_exact :
    (∀ (zip : ZipArchive) (layerDest : List Component) (layer entry : String),
      strEndsWith entry '/' = true →
      pathStartsWith (joinPath layerDest (parsePath entry)) layerDest = true →
      (entryResult zip layerDest layer entry (file_names zip)).error = none ∧
      writesOf (entryResult zip layerDest layer entry (file_names zip)).actions =
        ((file_names zip).filter (dirSelects entry)).map
          (fun z => (joinPath layerDest (parsePath z), (by_name zip z).getD []))) ∧
    writesOf (extract_layer zipDirDemo [Component.normal "out"] "layer" ["a/"]).actions =
      [([Component.normal "out", Component.normal "layer", Component.normal "a",
          Component.normal "x.txt"], [1]),
        ([Component.normal "out", Component.normal "layer", Component.normal "a",
          Component.normal "b", Component.normal "y.txt"], [2])] ∧
    (extract_layer zipDirDemo [Component.normal "out"] "layer" ["a/"]).error = none := by
  refine ⟨?_, by decide, by decide⟩
  intro zip layerDest layer entry hdir hchk
  have hca := childActions_spec zip layerDest layer entry (file_names zip)
    (fun z hz => by_name_isSome_of_mem zip z hz)
  constructor
  · simp only [entryResult, hdir, if_true, hchk]
    exact hca.1
  · simp only [entryResult, hdir, if_true, hchk, writesOf]
    exact hca.2

/-- Witness for C3's general part, at the example archive. -/
theorem dir_entry_expansion_exact_witness :
    (entryResult zipDirDemo [Component.normal "out"] "layer" "a/"
      (file_names zipDirDemo)).error = none ∧
    writesOf (entryResult zipDirDemo [Component.normal "out"] "layer" "a/"
      (file_names zipDirDemo)).actions =
      ((file_names zipDirDemo).filter (dirSelects "a/")).map
        (fun z => (joinPath [Component.normal "out"] (parsePath z),
          (by_name zipDirDemo z).getD [])) :=
  dir_entry_expansion_exact.1 zipDirDemo [Component.normal "out"] "layer" "a/"
    (by decide) (by decide)

/-- Claim C4: a manifest whose lines contain exactly one line beginning with
each property token, each with a colon, parses — in any line order,
interleaved with unrelated lines — to the text after the first colon of
each matching line, leading whitespace trimmed.  If no line carries the
layers property the parse fails naming it; if the layers line is present
(with a colon) but no line carries the classpath property, the parse fails
naming the classpath property. -/
theorem manifest_parse_roundtrip :
    (∀ (lines : List String) (ll cl : String) (pl pc : String × String),
      lines.filter matchesLayers = [ll] →
      lines.filter matchesClasspath = [cl] →
      split_once ll ':' = some pl →
      split_once cl ':' = some pc →
      from_lines lines = Except.ok ⟨trimStartStr pl.2, trimStartStr pc.2⟩) ∧
    (∀ lines : List String, lines.filter matchesLayers = [] →
      from_lines lines = Except.error msgMissingLayers) ∧
    (∀ (lines : List String) (ll : String) (pl : String × String),
      lines.filter matchesLayers = [ll] → split_once ll ':' = some pl →
      lines.filter matchesClasspath = [] →
      from_lines lines = Except.error msgMissingClasspath) :=
  ⟨from_lines_success, from_lines_missing_layers, from_lines_missing_classpath⟩

/-- Witness for C4 on the repository's own test manifest lines. -/
theorem manifest_parse_roundtrip_witness :
    from_lines ["Spring-Boot-Version: 2.7.1",
      "Spring-Boot-Classpath-Index: BOOT-INF/classpath.idx",
      "Spring-Boot-Layers-Index: BOOT-INF/layers.idx"] =
      Except.ok ⟨"BOOT-INF/layers.idx", "BOOT-INF/classpath.idx"⟩ := by
  have h := manifest_parse_roundtrip.1
    ["Spring-Boot-Version: 2.7.1",
      "Spring-Boot-Classpath-Index: BOOT-INF/classpath.idx",
      "Spring-Boot-Layers-Index: BOOT-INF/layers.idx"]
    "Spring-Boot-Layers-Index: BOOT-INF/layers.idx"
    "Spring-Boot-Classpath-Index: BOOT-INF/classpath.idx"
    ("Spring-Boot-Layers-Index", " BOOT-INF/layers.idx")
    ("Spring-Boot-Classpath-Index", " BOOT-INF/classpath.idx")
    (by decide) (by decide) (by decide) (by decide)
  exact h.trans (by rfl)

/-- Claim C5: a layer declaring a file entry that is not an archive member
(as the layer's first failing entry) makes extraction fail with an error
naming the layer and the entry; no subsequent layer of the plan is
processed, and the actions of the layers before the failure are retained. -/
theorem missing_file_entry_fail_fast (zip : ZipArchive) (dest : List Component)
    (pre post : List (String × List String)) (layer : String)
    (fs1 fs2 : List String) (entry : String)
    (hchk : pathStartsWith (joinPath dest (parsePath layer)) dest = true)
    (hfs1 : (entriesResult zip (joinPath dest (parsePath layer)) layer fs1).error = none)
    (hfile : strEndsWith entry '/' = false)
    (hmiss : by_name zip entry = none)
    (hpre : (run_extract zip dest pre).error = none) :
    (extract_layer zip dest layer (fs1 ++ entry :: fs2)).error =
      some ("unknown file " ++ entry ++ " in layer " ++ layer) ∧
    run_extract zip dest (pre ++ (layer, fs1 ++ entry :: fs2) :: post) =
      ⟨(run_extract zip dest pre).actions ++
        (extract_layer zip dest layer (fs1 ++ entry :: fs2)).actions,
        some ("unknown file " ++ entry ++ " in layer " ++ layer)⟩ := by
  have hentry : entryResult zip (joinPath dest (parsePath layer)) layer entry
      (file_names zip) =
      ⟨[], some ("unknown file " ++ entry ++ " in layer " ++ layer)⟩ := by
    simp [entryResult, hfile, hmiss]
  have herr : (entriesResult zip (joinPath dest (parsePath layer)) layer
      (fs1 ++ entry :: fs2)).error =
      some ("unknown file " ++ entry ++ " in layer " ++ layer) := by
    rw [entriesResult_append_ok zip (joinPath dest (parsePath layer)) layer fs1
      (entry :: fs2) hfs1]
    simp only [entriesResult, hentry]
  have h1 : (extract_layer zip dest layer (fs1 ++ entry :: fs2)).error =
      some ("unknown file " ++ entry ++ " in layer " ++ layer) := by
    simp only [extract_layer, hchk, if_true]
    exact herr
  refine ⟨h1, ?_⟩
  rw [run_extract_append_ok zip dest pre ((layer, fs1 ++ entry :: fs2) :: post) hpre]
  simp only [run_extract, h1]

/-- Witness for C5 at a concrete three-layer plan. -/
theorem missing_file_entry_fail_fast_witness :
    (extract_layer zipDemo [Component.normal "out"] "l1"
        ([] ++ "missing.txt" :: [])).error =
      some ("unknown file " ++ "missing.txt" ++ " in layer " ++ "l1") ∧
    run_extract zipDemo [Component.normal "out"]
        ([("l0", [])] ++ ("l1", [] ++ "missing.txt" :: []) :: [("l2", [])]) =
      ⟨(run_extract zipDemo [Component.normal "out"] [("l0", [])]).actions ++
        (extract_layer zipDemo [Component.normal "out"] "l1"
          ([] ++ "missing.txt" :: [])).actions,
        some ("unknown file " ++ "missing.txt" ++ " in layer " ++ "l1")⟩ :=
  missing_file_entry_fail_fast zipDemo [Component.normal "out"] [("l0", [])]
    [("l2", [])] "l1" [] [] "missing.txt" (by decide) (by decide) (by decide)
    (by decide) (by decide)

/-- Claim C6 counterexample: two top-level documents do not make the index
loader fail — it silently returns the first, for both indexes (the claim
says zero or more than one document is an error). -/
theorem index_loader_first_of_two_docs :
    layers_yaml [Yaml.null, Yaml.badValue] = Except.ok Yaml.null ∧
    classpath_yaml [Yaml.null, Yaml.badValue] = Except.ok Yaml.null :=
  ⟨rfl, rfl⟩

/-- Claim C6 (amended): the index loader fails with the
expected-single-document error exactly when the parser yields zero
documents; with one or more documents it returns the first, without
error. -/
theorem index_loader_single_doc_amended :
    layers_yaml [] = Except.error "Invalid layer index yaml: expected 1 root" ∧
    classpath_yaml [] = Except.error "Invalid layer index yaml: expected 1 root" ∧
    (∀ (d : Yaml) (rest : List Yaml), layers_yaml (d :: rest) = Except.ok d) ∧
    (∀ (d : Yaml) (rest : List Yaml), classpath_yaml (d :: rest) = Except.ok d) :=
  ⟨rfl, rfl, fun _ _ => rfl, fun _ _ => rfl⟩

/-- Claim C7 counterexample: a layer-index tree that is a sequence, but not
of single-entry mappings, is not rejected: a non-mapping element is
silently skipped, and a mapping with two entries yields two layers — in
both the list path and the extract planning path. -/
theorem layer_planner_skips_ill_shaped :
    list [Yaml.seq [Yaml.str "oops",
      Yaml.hash [(Yaml.str "a", Yaml.null), (Yaml.str "b", Yaml.null)]]] =
      Except.ok ["a", "b"] ∧
    planLayers (Yaml.seq [Yaml.str "oops"]) [] = Except.ok [] :=
  ⟨rfl, rfl⟩

/-- Claim C7 (amended): the layer planner (for both list and extract) fails
— with the expected-array error — exactly when the tree is not a sequence;
every sequence is accepted, with non-mapping elements and non-string keys
silently skipped rather than rejected. -/
theorem layer_planner_array_check_amended :
    (∀ y : Yaml, asVec y = none →
      list [y] = Except.error "Invalid layer index yaml: expected array" ∧
      ∀ req : List String,
        planLayers y req = Except.error "Invalid layer index yaml: expected array") ∧
    (∀ xs : List Yaml, ∃ out, list [Yaml.seq xs] = Except.ok out) ∧
    (∀ (xs : List Yaml) (req : List String), ∃ plan,
      planLayers (Yaml.seq xs) req = Except.ok plan) := by
  refine ⟨?_, ?_, ?_⟩
  · intro y hy
    refine ⟨?_, ?_⟩
    · simp only [list, layers_yaml, hy]
    · intro req
      simp only [planLayers, hy]
  · intro xs
    exact ⟨_, rfl⟩
  · intro xs req
    exact ⟨_, rfl⟩

/-- Witness for the amended C7 theorem at a non-sequence tree. -/
theorem layer_planner_array_check_amended_witness :
    list [Yaml.null] = Except.error "Invalid layer index yaml: expected array" ∧
    planLayers Yaml.null ["a"] = Except.error "Invalid layer index yaml: expected array" :=
  ⟨(layer_planner_array_check_amended.1 Yaml.null rfl).1,
    (layer_planner_array_check_amended.1 Yaml.null rfl).2 ["a"]⟩

/-- Claim C8: a file entry that is an archive member is opened by exactly
the entry's name, its enclosed (traversal-free) relative name is resolved,
and exactly one file write is produced, at `layer_root.join(enclosed_name)`,
with the member's bytes (`File::create` truncates, overwriting any existing
file at that path). -/
theorem file_entry_exactness (zip : ZipArchive) (layerDest : List Component)
    (layer entry : String) (content : List Nat) (enc : List Component)
    (hfile : strEndsWith entry '/' = false)
    (hname : by_name zip entry = some content)
    (henc : enclosedName entry = some enc) :
    (entryResult zip layerDest layer entry (file_names zip)).error = none ∧
    writesOf (entryResult zip layerDest layer entry (file_names zip)).actions =
      [(joinPath layerDest enc, content)] := by
  constructor
  · simp [entryResult, hfile, hname, henc]
  · simp only [entryResult, hfile, Bool.false_eq_true, if_false, hname, henc]
    rw [writesOf_parentMkdir_cons]
    rfl

/-- Witness for C8 at the one-member archive. -/
theorem file_entry_exactness_witness :
    (entryResult zipDemo [Component.normal "out"] "lay" "f.txt"
      (file_names zipDemo)).error = none ∧
    writesOf (entryResult zipDemo [Component.normal "out"] "lay" "f.txt"
      (file_names zipDemo)).actions =
      [([Component.normal "out", Component.normal "f.txt"], [102, 1])] := by
  have h := file_entry_exactness zipDemo [Component.normal "out"] "lay" "f.txt"
    [102, 1] [Component.normal "f.txt"] (by decide) (by decide) (by decide)
  exact ⟨h.1, h.2.trans (by rfl)⟩

/-- Claim C9: for a classpath-index tree that is a sequence, the classpath
operation outputs exactly its scalar-string elements, one per line, in
index order, silently skipping non-string elements; the two-entry index
prints both lines in that exact order, and an interleaved non-string
element is skipped. -/
theorem classpath_order_and_skip :
    (∀ xs : List Yaml, classpath [Yaml.seq xs] = Except.ok (stringScalars xs)) ∧
    classpath [Yaml.seq [Yaml.str "BOOT-INF/lib/a.jar", Yaml.str "BOOT-INF/lib/b.jar"]] =
      Except.ok ["BOOT-INF/lib/a.jar", "BOOT-INF/lib/b.jar"] ∧
    classpath [Yaml.seq [Yaml.str "BOOT-INF/lib/a.jar", Yaml.int 7,
      Yaml.str "BOOT-INF/lib/b.jar"]] =
      Except.ok ["BOOT-INF/lib/a.jar", "BOOT-INF/lib/b.jar"] := by
  refine ⟨?_, rfl, rfl⟩
  intro xs
  simp only [classpath, classpath_yaml, asVec]
  rw [filterMap_asStr_eq_stringScalars]

/-- Claim C10: manifest reading from a line stream stops silently at the
first failed line read — everything after the first read error is ignored —
and the overall result is always either a parsed manifest or one of the two
missing-property errors, never a surfaced read error. -/
theorem from_reader_stops_at_error :
    (∀ (pre post : List (Except String String)) (e : String),
      (∀ r ∈ pre, lineOk r = true) →
      from_reader (pre ++ Except.error e :: post) = from_reader pre) ∧
    (∀ results : List (Except String String),
      (∃ m, from_reader results = Except.ok m) ∨
      from_reader results = Except.error msgMissingLayers ∨
      from_reader results = Except.error msgMissingClasspath) := by
  constructor
  · intro pre post e hpre
    rw [from_reader, from_reader, okLines, okLines]
    rw [takeWhile_ok_append pre e post hpre]
    rw [List.takeWhile_eq_self_iff.2 hpre]
  · intro results
    exact from_lines_shape (okLines results)

/-- Witness for C10: garbage after a read error does not change the result. -/
theorem from_reader_stops_at_error_witness :
    from_reader [Except.ok "Spring-Boot-Layers-Index: a.idx",
      Except.error "io failure", Except.ok "Spring-Boot-Classpath-Index: b.idx"] =
      from_reader [Except.ok "Spring-Boot-Layers-Index: a.idx"] :=
  from_reader_stops_at_error.1 [Except.ok "Spring-Boot-Layers-Index: a.idx"]
    [Except.ok "Spring-Boot-Classpath-Index: b.idx"] "io failure" (by decide)
